import Mathlib

/-!
Verification of the repository-reference resolution core (`git-repo-parser.ts`
and `github-app-auth.ts`) against its natural-language specification.

The TypeScript code is shallowly embedded below.  Strings are manipulated as
`List Char` (obtained via `String.toList`); the WHATWG `new URL(...)` platform
primitive is modelled by `jsUrlParse` for the hierarchical
`scheme://authority/path` fragment this code exercises (userinfo and port are
stripped from the authority, the hostname is ASCII-lowercased, dot path
segments are normalized; IPv6 host brackets, percent-encoded dot segments and
opaque-path URLs are outside the model).  Network effects (the octokit App
token exchange and the single `fetch`) are passed in as an explicit
environment, and the observable side effects (issued requests, `console`
output) are returned as an explicit trace.
-/

/-- Character class of the regex `\w`: ASCII letters, digits, underscore. -/
def isWordChar (c : Char) : Bool :=
  c.isAlphanum || c = '_'

/-- Character class `[\w-]` used for the shorthand owner token. -/
def isOwnerChar (c : Char) : Bool :=
  isWordChar c || c = '-'

/-- Character class `[\w.-]` used for the shorthand repo token and the
`/tree/<branch>` capture group. -/
def isTokenChar (c : Char) : Bool :=
  isWordChar c || c = '.' || c = '-'

/-- Character class `[a-f0-9]` with the `i` flag, used by the
`/commit/<hash>` capture group. -/
def isHexChar (c : Char) : Bool :=
  (decide ('a' ≤ c) && decide (c ≤ 'f')) ||
  (decide ('A' ≤ c) && decide (c ≤ 'F')) ||
  c.isDigit

/-- ASCII lower-casing of a single character, as performed by the WHATWG URL
parser on hostnames. -/
def lowerAscii : Char → Char
  | 'A' => 'a' | 'B' => 'b' | 'C' => 'c' | 'D' => 'd' | 'E' => 'e'
  | 'F' => 'f' | 'G' => 'g' | 'H' => 'h' | 'I' => 'i' | 'J' => 'j'
  | 'K' => 'k' | 'L' => 'l' | 'M' => 'm' | 'N' => 'n' | 'O' => 'o'
  | 'P' => 'p' | 'Q' => 'q' | 'R' => 'r' | 'S' => 's' | 'T' => 't'
  | 'U' => 'u' | 'V' => 'v' | 'W' => 'w' | 'X' => 'x' | 'Y' => 'y'
  | 'Z' => 'z'
  | c => c

/-- Decides whether `pat` occurs as a contiguous subsequence of `l`
(the semantics of JavaScript `String.prototype.includes` and of an
unanchored literal regex test). -/
def hasSub (pat : List Char) : List Char → Bool
  | [] => pat.isEmpty
  | c :: cs => pat.isPrefixOf (c :: cs) || hasSub pat cs

/-- Splits a character list at every occurrence of `sep`
(the semantics of JavaScript `String.prototype.split` with a
one-character separator). -/
def splitOnC (sep : Char) : List Char → List (List Char)
  | [] => [[]]
  | c :: cs =>
    if c = sep then [] :: splitOnC sep cs
    else
      match splitOnC sep cs with
      | [] => [[c]]
      | h :: t => (c :: h) :: t

/-- The part of `l` after the last occurrence of `c` (all of `l` when `c`
does not occur); used to drop the userinfo part of a URL authority. -/
def afterLast (c : Char) (l : List Char) : List Char :=
  (l.reverse.takeWhile (fun d => d != c)).reverse

/-- Splits a character list at the first occurrence of the scheme separator
`://`, returning the scheme and the remainder. -/
def splitScheme : List Char → Option (List Char × List Char)
  | [] => none
  | c :: cs =>
    if (':' :: '/' :: '/' :: []).isPrefixOf (c :: cs) then some ([], cs.drop 2)
    else (splitScheme cs).map (fun p => (c :: p.1, p.2))

/-- Validity of a URL scheme: `[A-Za-z][A-Za-z0-9+.-]*`. -/
def schemeOk : List Char → Bool
  | [] => false
  | c :: cs => c.isAlpha && cs.all (fun d => d.isAlphanum || d = '+' || d = '-' || d = '.')

/-- WHATWG dot-segment normalization of a URL path: `.` segments are dropped
and `..` segments pop the previous segment. -/
def dotNormAux (acc : List (List Char)) : List (List Char) → List (List Char)
  | [] => acc
  | s :: rest =>
    if s = ['.'] then dotNormAux acc rest
    else if s = ['.', '.'] then dotNormAux acc.dropLast rest
    else dotNormAux (acc ++ [s]) rest

/-- Dot-segment normalization starting from an empty stack. -/
def dotNorm (segs : List (List Char)) : List (List Char) :=
  dotNormAux [] segs

/-- Model of a parsed WHATWG URL object, restricted to the two pieces the
code reads: `hostname` (lower-cased, userinfo and port stripped) and the
raw path (query and fragment stripped). -/
structure JsUrl where
  hostname : List Char
  path : List Char
  deriving DecidableEq, Repr

/-- Model of `new URL(s)` for hierarchical `scheme://authority/path`
references: returns `none` exactly when the real parser would throw
(no `://`, invalid scheme, empty authority or empty host). -/
def jsUrlParse (l : List Char) : Option JsUrl :=
  match splitScheme l with
  | none => none
  | some (scheme, rest) =>
    if schemeOk scheme then
      let authority := rest.takeWhile (fun c => c != '/' && c != '?' && c != '#')
      if authority.isEmpty then none
      else
        let host := (afterLast '@' authority).takeWhile (fun c => c != ':')
        if host.isEmpty then none
        else
          let path := (rest.drop authority.length).takeWhile (fun c => c != '?' && c != '#')
          some { hostname := host.map lowerAscii, path := path }
    else none

/-- The non-empty, dot-normalized path segments of a parsed URL, as computed
by `urlObj.pathname.split("/").filter(Boolean)` on the real URL object. -/
def pathSegs (u : JsUrl) : List (List Char) :=
  dotNorm ((splitOnC '/' u.path).filter (fun s => !s.isEmpty))

/-- First match of an unanchored regex of the form `marker(<cls>+)`:
scan for `marker`, capture the longest non-empty run of `cls` characters
after it, and keep scanning from the next position when the run is empty. -/
def firstCapture (marker : List Char) (cls : Char → Bool) : List Char → Option (List Char)
  | [] => none
  | c :: cs =>
    if marker.isPrefixOf (c :: cs) then
      let tok := ((c :: cs).drop marker.length).takeWhile cls
      if tok.isEmpty then firstCapture marker cls cs else some tok
    else firstCapture marker cls cs

/-- The `BRANCH_PATTERN` regex `/\/tree\/([\w.-]+)/` applied to a string:
its first capture group, if any. -/
def branchMatch (l : List Char) : Option (List Char) :=
  firstCapture ('/' :: 't' :: 'r' :: 'e' :: 'e' :: '/' :: []) isTokenChar l

/-- First match of an unanchored regex of the form `marker(<cls>+)` whose
marker is matched case-insensitively (a lowercase `marker` against the
ASCII-lowered input), as the JavaScript `i` flag does for the literal part
of the pattern. -/
def firstCaptureCI (marker : List Char) (cls : Char → Bool) : List Char → Option (List Char)
  | [] => none
  | c :: cs =>
    if marker.isPrefixOf ((c :: cs).map lowerAscii) then
      let tok := ((c :: cs).drop marker.length).takeWhile cls
      if tok.isEmpty then firstCaptureCI marker cls cs else some tok
    else firstCaptureCI marker cls cs

/-- The `COMMIT_PATTERN` regex `/\/commit\/([a-f0-9]+)/i` applied to a
string: its first capture group, if any.  The `i` flag covers the literal
`/commit/` marker as well as the hex class, so the marker scan is
case-insensitive. -/
def commitMatch (l : List Char) : Option (List Char) :=
  firstCaptureCI ('/' :: 'c' :: 'o' :: 'm' :: 'm' :: 'i' :: 't' :: '/' :: []) isHexChar l

/-- The shorthand arm of `gitUrlSchema`: the anchored regex
`/^[\w-]+\/[\w.-]+$/`. -/
def shorthandOk (l : List Char) : Bool :=
  match splitOnC '/' l with
  | [a, b] => !a.isEmpty && a.all isOwnerChar && !b.isEmpty && b.all isTokenChar
  | _ => false

/-- The `gitUrlSchema` refinement: a string is a valid repository reference
when it either contains `://` and parses as a URL, or matches the shorthand
`owner/repo` regex. -/
def gitUrlValid (s : String) : Bool :=
  if hasSub (':' :: '/' :: '/' :: []) s.toList then (jsUrlParse s.toList).isSome
  else shorthandOk s.toList

/-- The exported `GitRepoParser.validate`, reduced to the success bit of the
zod `safeParse` result. -/
def validate (s : String) : Bool :=
  gitUrlValid s

/-- The three providers of the `GitRepoMetadata` union type. -/
inductive Provider where
  | github
  | gitlab
  | bitbucket
  deriving DecidableEq, Repr

/-- The `PROVIDER_PATTERNS` table, in source order; each regex is a literal
(unanchored) host substring. -/
def PROVIDER_PATTERNS : List (Provider × List Char) :=
  [(Provider.github, "github.com".toList),
   (Provider.gitlab, "gitlab.com".toList),
   (Provider.bitbucket, "bitbucket.org".toList)]

/-- Provider detection: first entry of `PROVIDER_PATTERNS` whose pattern
tests true on the hostname, defaulting to `github`. -/
def detectProvider (h : List Char) : Provider :=
  ((PROVIDER_PATTERNS.find? (fun p => hasSub p.2 h)).map Prod.fst).getD Provider.github

/-- The exported `GitRepoParser.isValidProvider`. -/
def isValidProvider (url : String) : Bool :=
  match jsUrlParse url.toList with
  | none => false
  | some u => PROVIDER_PATTERNS.any (fun p => hasSub p.2 u.hostname)

/-- The `repo?.replace(/\.git$/, "")` step. -/
def stripGitSuffix (r : List Char) : List Char :=
  if ('.' :: 'g' :: 'i' :: 't' :: []).isSuffixOf r then r.take (r.length - 4) else r


/-- The `githubApp` field of `ParseOptions` (and the constructor argument of
`GitHubAppAuth`). -/
structure GithubAppConfig where
  appId : String
  privateKey : String
  clientId : String
  clientSecret : String
  installationId : Option String := none
  deriving DecidableEq, Repr

/-- The `ParseOptions` record of `GitRepoParser.parse`. -/
structure ParseOptions where
  authToken : Option String := none
  githubApp : Option GithubAppConfig := none
  deriving DecidableEq, Repr

/-- The `type` field of an octokit `AuthenticationResult`. -/
inductive AuthType where
  | app
  | installation
  deriving DecidableEq, Repr

/-- The payload of a successful octokit `auth(...)` call. -/
structure AppAuthentication where
  token : String
  expiresAt : Option String := none
  deriving DecidableEq, Repr

/-- The `AuthenticationResult` record returned by
`GitHubAppAuth.getAuthenticationToken`. -/
structure AuthenticationResult where
  token : String
  type : AuthType
  expiresAt : Option String := none
  installationUrl : Option String := none
  deriving DecidableEq, Repr

/-- Environment for the two octokit token-exchange calls performed by
`createAppAuth`: the app-scoped call and the installation-scoped call, each
either succeeding with a token or throwing with a message. -/
structure AppAuthEnv where
  appCall : Except String AppAuthentication
  installationCall : Except String AppAuthentication

/-- JavaScript truthiness of an optional string (`undefined` and `""` are
falsy). -/
def jsTruthyStr : Option String → Bool
  | none => false
  | some s => s ≠ ""

/-- The fixed `GITHUB_APP_INSTALLATION_URL` constant of `GitHubAppAuth`. -/
def GITHUB_APP_INSTALLATION_URL : String :=
  "https://github.com/apps/your-app-name/installations/new"

/-- Embeds `GitHubAppAuth.getAuthenticationToken`: without a truthy
`installationId` (the `!this.config.installationId` test, so `undefined`
and the empty string both count as absent) the app-scoped call is made and
the fixed installation URL is attached to an `app`-typed result; otherwise
the installation-scoped call is made; any failure is wrapped as a
`GitHub App authentication failed` error. -/
def getAuthenticationToken (config : GithubAppConfig) (env : AppAuthEnv) :
    Except String AuthenticationResult :=
  let res : Except String AuthenticationResult :=
    if jsTruthyStr config.installationId = false then
      env.appCall.map (fun a =>
        { token := a.token, type := AuthType.app, expiresAt := a.expiresAt,
          installationUrl := some GITHUB_APP_INSTALLATION_URL })
    else
      env.installationCall.map (fun a =>
        { token := a.token, type := AuthType.installation, expiresAt := a.expiresAt })
  match res with
  | Except.ok r => Except.ok r
  | Except.error e => Except.error ("GitHub App authentication failed: " ++ e)

/-- The observable parts of the single `fetch` response that
`GitRepoParser.parse` reads: `ok`, `status`, `statusText`, the two
rate-limit headers, the error body text, and the `private` field of the
JSON body. -/
structure HttpResponse where
  ok : Bool
  status : Nat
  statusText : String := ""
  rateLimitRemaining : Option String := none
  rateLimitReset : Option String := none
  body : String := ""
  privateFlag : Bool := false
  deriving DecidableEq, Repr

/-- The full effect environment of one `parse` call. -/
structure ParseEnv where
  appAuth : AppAuthEnv
  response : HttpResponse

/-- Console log levels used by `parse` (`console.warn` / `console.error`). -/
inductive LogLevel where
  | warn
  | err
  deriving DecidableEq, Repr

/-- One console log entry emitted by `parse`. -/
structure LogEntry where
  level : LogLevel
  message : String
  deriving DecidableEq, Repr

/-- The observable side effects of one `parse` call: the issued metadata
requests (request URL and optional `Authorization` header value) and the
console output. -/
structure Trace where
  fetchCalls : List (String × Option String) := []
  logs : List LogEntry := []
  deriving DecidableEq, Repr

/-- The errors `parse` can reject with (every other internal throw is
swallowed by the metadata `catch` block): the zod `InvalidFormat` failure
and the missing owner/repository throw. -/
inductive ParseError where
  | invalidFormat
  | missingOwnerOrRepo
  deriving DecidableEq, Repr

/-- The `GitRepoMetadata` record. -/
structure GitRepoMetadata where
  owner : String
  repo : String
  branch : Option String := none
  commit : Option String := none
  provider : Provider
  isPrivate : Bool
  deriving DecidableEq, Repr

/-- The `ParsedGitUrl` record returned by `parse`. -/
structure ParsedGitUrl where
  metadata : GitRepoMetadata
  normalizedUrl : String
  originalUrl : String
  deriving DecidableEq, Repr

/-- Decimal-digit accumulator used to read the numeric rate-limit headers. -/
def digitsToNat (acc : Nat) : List Char → Option Nat
  | [] => some acc
  | c :: cs => if c.isDigit then digitsToNat (acc * 10 + (c.toNat - 48)) cs else none

/-- JavaScript `Number(...)` on an optional header string, restricted to the
non-negative integer-valued headers this code reads (`null`, `""` and
non-numeric strings all coerce to `0`; in full JavaScript a non-numeric
string gives `NaN`, which none of the claims exercise). -/
def jsNumber : Option String → Int
  | none => 0
  | some s => Int.ofNat ((digitsToNat 0 s.toList).getD 0)

/-- The metadata-fetch failure taxonomy of lines 170-180 of
`git-repo-parser.ts`; `resetAtMillis` is the reset header interpreted as
epoch seconds and converted to epoch milliseconds (the argument of
`new Date(...)`). -/
inductive FetchError where
  | repositoryNotFound (owner repo : String)
  | rateLimitExceeded (resetAtMillis : Int)
  | providerApiError (status : Nat) (body : String)
  deriving DecidableEq, Repr

/-- Classification of a non-success metadata response, translated from the
`if (response.status === 404) ... else if (response.status === 403 &&
rateLimitRemaining === "0") ... else ...` chain. -/
def classifyResponse (status : Nat) (remaining reset : Option String)
    (body owner repo : String) : FetchError :=
  if status = 404 then FetchError.repositoryNotFound owner repo
  else if status = 403 ∧ remaining = some "0" then
    FetchError.rateLimitExceeded (jsNumber reset * 1000)
  else FetchError.providerApiError status body

/-- The message of the `Error` thrown for each classified fetch failure
(the ISO rendering of the reset date is abstracted to the numeric epoch
milliseconds; the code only ever tests this message for the substring
`rate limit exceeded`). -/
def fetchErrorMessage : FetchError → String
  | FetchError.repositoryNotFound o r => "Repository not found: " ++ o ++ "/" ++ r
  | FetchError.rateLimitExceeded m => "GitHub API rate limit exceeded. Reset at " ++ toString m
  | FetchError.providerApiError s b => "GitHub API Error: " ++ toString s ++ " - " ++ b

/-- The catch block of lines 185-195: a caught error whose message contains
`rate limit exceeded` is logged with `console.warn`, every other one with
`console.error`. -/
def logFor (msg : String) : LogEntry :=
  if hasSub "rate limit exceeded".toList msg.toList then
    { level := LogLevel.warn, message := msg }
  else
    { level := LogLevel.err, message := "Failed to fetch repository metadata: " ++ msg }

/-- The pure normalization prefix of `parse` (lines 71-107 of
`git-repo-parser.ts`): its fields are exactly the values `parse` has
computed just before the metadata-fetch block. -/
structure NormRef where
  owner : List Char
  cleanRepo : List Char
  branch : Option (List Char)
  commit : Option (List Char)
  provider : Provider
  hostname : List Char
  url1 : String
  deriving DecidableEq, Repr

/-- Embeds lines 71-107 of `GitRepoParser.parse`: zod validation, shorthand
expansion, URL parsing, provider detection, branch/commit regex extraction
over the (possibly expanded) url string, owner/repo extraction with `.git`
stripping, and the missing owner/repo guard.  `normalizeCore` is the portion
from line 79 on, operating on the (possibly shorthand-expanded) `url`
variable; the `jsUrlParse = none` branch is unreachable for validated inputs
(`new URL` cannot throw there) and is mapped to `invalidFormat`. -/
def normalizeCore (url1 : String) : Except ParseError NormRef :=
  match jsUrlParse url1.toList with
  | none => Except.error ParseError.invalidFormat
  | some u =>
    let provider := detectProvider u.hostname
    let branch := branchMatch url1.toList
    let commit := commitMatch url1.toList
    match pathSegs u with
    | owner :: repo :: _ =>
      let cleanRepo := stripGitSuffix repo
      if owner.isEmpty ∨ cleanRepo.isEmpty then Except.error ParseError.missingOwnerOrRepo
      else
        Except.ok { owner := owner, cleanRepo := cleanRepo, branch := branch,
                    commit := commit, provider := provider, hostname := u.hostname,
                    url1 := url1 }
    | _ => Except.error ParseError.missingOwnerOrRepo

/-- The validation and shorthand-expansion head of the normalization
(lines 71-77), delegating to `normalizeCore` for the rest. -/
def normalizeRef (url : String) : Except ParseError NormRef :=
  if ¬ gitUrlValid url then Except.error ParseError.invalidFormat
  else
    normalizeCore (if ¬ hasSub (':' :: '/' :: '/' :: []) url.toList then
      "https://github.com/" ++ url else url)

/-- The normalized URL constructed at line 107:
`https://<hostname>/<owner>/<cleanRepo>`. -/
def normalizedUrlOf (n : NormRef) : String :=
  "https://" ++ String.mk n.hostname ++ "/" ++ String.mk n.owner ++ "/" ++
    String.mk n.cleanRepo

/-- The authentication-header portion of the metadata block (lines 119-143):
either a `Bearer` header, no header, or a thrown error message (installation
required, app auth failed - doubly wrapped as in the source - or invalid
token format).  The `else if (options.authToken)` test is a truthiness
test, so an empty-string token skips the branch and attaches no header. -/
def authHeaderStep (options : ParseOptions) (env : ParseEnv) :
    Except String (Option String) :=
  match options.githubApp with
  | some cfg =>
    match getAuthenticationToken cfg env.appAuth with
    | Except.ok authResult =>
      if authResult.type = AuthType.app ∧ jsTruthyStr authResult.installationUrl then
        Except.error "GitHub App installation required"
      else Except.ok (some ("Bearer " ++ authResult.token))
    | Except.error e =>
      Except.error ("GitHub App authentication failed: " ++ e)
  | none =>
    match options.authToken with
    | some t =>
      if t ≠ "" then
        if ¬ ("ghp_".toList.isPrefixOf t.toList ∨ "github_pat_".toList.isPrefixOf t.toList) then
          Except.error "Invalid GitHub token format. Token should be a GitHub Personal Access Token."
        else Except.ok (some ("Bearer " ++ t))
      else Except.ok none
    | none => Except.ok none

/-- The whole `provider === "github"` try/catch block (lines 113-200):
resolves the auth header, issues the single metadata request, classifies a
non-success response, and - crucially - catches every error thrown anywhere
inside, logs it (warn for rate-limit messages, error otherwise) and
continues with `isPrivate = false`.  Returns the resulting `isPrivate`
together with the observable trace. -/
def githubMetadataStep (owner cleanRepo : String) (options : ParseOptions)
    (env : ParseEnv) : Bool × Trace :=
  match authHeaderStep options env with
  | Except.error e => (false, { fetchCalls := [], logs := [logFor e] })
  | Except.ok header =>
    let requestUrl := "https://api.github.com/repos/" ++ owner ++ "/" ++ cleanRepo
    if env.response.ok then
      (env.response.privateFlag, { fetchCalls := [(requestUrl, header)], logs := [] })
    else
      let e := fetchErrorMessage (classifyResponse env.response.status
        env.response.rateLimitRemaining env.response.rateLimitReset
        env.response.body owner cleanRepo)
      (false, { fetchCalls := [(requestUrl, header)], logs := [logFor e] })

/-- Embeds `GitRepoParser.parse` end to end: normalization, then - only for
the `github` provider - the metadata block, then assembly of the
`ParsedGitUrl` result.  The returned `originalUrl` is the `url` variable at
line 212, i.e. the possibly shorthand-expanded string. -/
def parse (url : String) (options : ParseOptions) (env : ParseEnv) :
    Except ParseError ParsedGitUrl × Trace :=
  match normalizeRef url with
  | Except.error e => (Except.error e, {})
  | Except.ok n =>
    let p :=
      if n.provider = Provider.github then
        githubMetadataStep (String.mk n.owner) (String.mk n.cleanRepo) options env
      else (false, {})
    (Except.ok
      { metadata :=
          { owner := String.mk n.owner, repo := String.mk n.cleanRepo,
            branch := n.branch.map String.mk, commit := n.commit.map String.mk,
            provider := n.provider, isPrivate := p.1 },
        normalizedUrl := normalizedUrlOf n,
        originalUrl := n.url1 },
     p.2)

/-- A benign environment: both App token-exchange calls fail with a network
error and the metadata response is a public-repository success. -/
def env0 : ParseEnv :=
  { appAuth := { appCall := Except.error "net", installationCall := Except.error "net" },
    response := { ok := true, status := 200 } }

/-- Environment in which the app-scoped token exchange succeeds (used for
the App-configuration-without-installation scenario). -/
def envApp : ParseEnv :=
  { appAuth := { appCall := Except.ok { token := "tok", expiresAt := some "e" },
                 installationCall := Except.error "net" },
    response := { ok := true, status := 200 } }

/-- A 404 metadata response. -/
def resp404 : HttpResponse :=
  { ok := false, status := 404, statusText := "Not Found", body := "Not Found" }

/-- A rate-limited metadata response: 403 with a zero remaining counter and
a reset header. -/
def resp403 : HttpResponse :=
  { ok := false, status := 403, rateLimitRemaining := some "0",
    rateLimitReset := some "1700000000", body := "API rate limit exceeded" }

/-- An App configuration lacking an `installationId`. -/
def cfgNoInst : GithubAppConfig :=
  { appId := "1", privateKey := "k", clientId := "c", clientSecret := "s" }

/-- Spec-side predicate (for the amended C5): the input is an absolute URL,
i.e. contains the scheme separator and parses as a URL. -/
def specAbsoluteUrlInput (s : String) : Prop :=
  (':' :: '/' :: '/' :: []) <:+: s.toList ∧ (jsUrlParse s.toList).isSome

/-- Spec-side predicate (for the amended C5): the input is a shorthand
`owner/repo` whose owner consists of word characters or hyphens and whose
repo consists of word characters, dots, or hyphens. -/
def specShorthandInput (s : String) : Prop :=
  ∃ a b : List Char, s.toList = a ++ '/' :: b ∧ a ≠ [] ∧ (∀ c ∈ a, isOwnerChar c) ∧
    b ≠ [] ∧ (∀ c ∈ b, isTokenChar c)

/-- Spec-side provider table (for C8): the ordered first-match-wins
characterization written as an explicit decision chain. -/
def specProviderChain (h : List Char) : Provider :=
  if hasSub "github.com".toList h then Provider.github
  else if hasSub "gitlab.com".toList h then Provider.gitlab
  else if hasSub "bitbucket.org".toList h then Provider.bitbucket
  else Provider.github

theorem hasSub_iff {pat l : List Char} : hasSub pat l = true ↔ pat <:+: l := by
  induction l with
  | nil => simp [hasSub, List.isEmpty_iff]
  | cons c cs ih =>
    simp only [hasSub, Bool.or_eq_true, ih, List.isPrefixOf_iff_prefix]
    exact (List.infix_cons_iff).symm

theorem splitOnC_ne_nil (sep : Char) (l : List Char) : splitOnC sep l ≠ [] := by
  induction l with
  | nil => simp [splitOnC]
  | cons c cs ih =>
    simp only [splitOnC]
    split
    · simp
    · split
      · simp
      · simp

theorem splitOnC_no_sep {sep : Char} {l : List Char} (h : sep ∉ l) :
    splitOnC sep l = [l] := by
  induction l with
  | nil => rfl
  | cons c cs ih =>
    simp only [List.mem_cons, not_or] at h
    have hne : ¬ c = sep := fun hc => h.1 hc.symm
    simp only [splitOnC, if_neg hne, ih h.2]

theorem splitOnC_append_sep {sep : Char} {x rest : List Char} (h : sep ∉ x) :
    splitOnC sep (x ++ sep :: rest) = x :: splitOnC sep rest := by
  induction x with
  | nil => simp [splitOnC]
  | cons c cs ih =>
    simp only [List.mem_cons, not_or] at h
    have hne : ¬ c = sep := fun hc => h.1 hc.symm
    simp only [List.cons_append, splitOnC, if_neg hne, ih h.2]
    rcases hsp : splitOnC sep (cs ++ sep :: rest) with _ | ⟨hd, tl⟩
    · exact absurd hsp (splitOnC_ne_nil _ _)
    · rw [ih h.2] at hsp
      simp only [List.cons.injEq] at hsp
      simp [hsp.1, hsp.2]

theorem mem_splitOnC {sep : Char} {l x : List Char} (hx : x ∈ splitOnC sep l) :
    sep ∉ x ∧ ∀ c ∈ x, c ∈ l := by
  induction l generalizing x with
  | nil =>
    simp [splitOnC] at hx
    simp [hx]
  | cons c cs ih =>
    simp only [splitOnC] at hx
    by_cases hc : c = sep
    · rw [if_pos hc] at hx
      rcases List.mem_cons.1 hx with h | h
      · simp [h]
      · rcases ih h with ⟨h1, h2⟩
        exact ⟨h1, fun d hd => List.mem_cons_of_mem _ (h2 d hd)⟩
    · rw [if_neg hc] at hx
      rcases hsp : splitOnC sep cs with _ | ⟨hd, tl⟩
      · exact absurd hsp (splitOnC_ne_nil sep cs)
      · rw [hsp] at hx
        rcases List.mem_cons.1 hx with h | h
        · subst h
          have hhd : hd ∈ splitOnC sep cs := by rw [hsp]; simp
          rcases ih hhd with ⟨h1, h2⟩
          constructor
          · intro hmem
            rcases List.mem_cons.1 hmem with h3 | h3
            · exact hc h3.symm
            · exact h1 h3
          · intro d hd2
            rcases List.mem_cons.1 hd2 with h3 | h3
            · simp [h3]
            · exact List.mem_cons_of_mem _ (h2 d h3)
        · have hmem : x ∈ splitOnC sep cs := by rw [hsp]; exact List.mem_cons_of_mem _ h
          rcases ih hmem with ⟨h1, h2⟩
          exact ⟨h1, fun d hd2 => List.mem_cons_of_mem _ (h2 d hd2)⟩

theorem splitOnC_eq_single {sep : Char} {l x : List Char} :
    splitOnC sep l = [x] ↔ l = x ∧ sep ∉ x := by
  constructor
  · intro h
    induction l generalizing x with
    | nil =>
      simp [splitOnC] at h
      simp [h]
    | cons c cs ih =>
      simp only [splitOnC] at h
      by_cases hc : c = sep
      · rw [if_pos hc] at h
        simp only [List.cons.injEq] at h
        exact absurd h.2 (splitOnC_ne_nil sep cs)
      · rw [if_neg hc] at h
        rcases hsp : splitOnC sep cs with _ | ⟨hd, tl⟩
        · exact absurd hsp (splitOnC_ne_nil sep cs)
        · rw [hsp] at h
          simp only [List.cons.injEq] at h
          rcases ih (x := hd) (by rw [hsp, h.2]) with ⟨h1, h2⟩
          subst h1
          refine ⟨by rw [h.1], ?_⟩
          rw [← h.1]
          intro hmem
          rcases List.mem_cons.1 hmem with h3 | h3
          · exact hc h3.symm
          · exact h2 h3
  · rintro ⟨rfl, hx⟩
    exact splitOnC_no_sep hx

theorem splitOnC_eq_pair {sep : Char} {l a b : List Char} :
    splitOnC sep l = [a, b] ↔ l = a ++ sep :: b ∧ sep ∉ a ∧ sep ∉ b := by
  constructor
  · intro h
    induction l generalizing a with
    | nil => simp [splitOnC] at h
    | cons c cs ih =>
      simp only [splitOnC] at h
      by_cases hc : c = sep
      · rw [if_pos hc] at h
        simp only [List.cons.injEq] at h
        rcases splitOnC_eq_single.1 h.2 with ⟨rfl, hb⟩
        subst hc
        simp [← h.1, hb]
      · rw [if_neg hc] at h
        rcases hsp : splitOnC sep cs with _ | ⟨hd, tl⟩
        · exact absurd hsp (splitOnC_ne_nil sep cs)
        · rw [hsp] at h
          simp only [List.cons.injEq] at h
          rcases ih (a := hd) (by rw [hsp, h.2]) with ⟨h1, h2, h3⟩
          subst h1
          refine ⟨by rw [← h.1]; rfl, ?_, h3⟩
          rw [← h.1]
          intro hmem
          rcases List.mem_cons.1 hmem with h4 | h4
          · exact hc h4.symm
          · exact h2 h4
  · rintro ⟨rfl, ha, hb⟩
    rw [splitOnC_append_sep ha, splitOnC_no_sep hb]

theorem lowerAscii_cases (c : Char) :
    lowerAscii c = c ∨ ('a' ≤ lowerAscii c ∧ lowerAscii c ≤ 'z') := by
  unfold lowerAscii
  split
  all_goals first
    | exact Or.inl rfl
    | exact Or.inr (by constructor <;> decide)

theorem lowerAscii_eq_self {c : Char} (h : ¬ ('A' ≤ c ∧ c ≤ 'Z')) :
    lowerAscii c = c := by
  unfold lowerAscii
  split
  all_goals first
    | rfl
    | exact absurd (by constructor <;> decide) h

theorem lowerAscii_idem (c : Char) : lowerAscii (lowerAscii c) = lowerAscii c := by
  rcases lowerAscii_cases c with h | h
  · rw [h, h]
  · refine lowerAscii_eq_self ?_
    rintro ⟨h1, h2⟩
    exact absurd (le_trans h.1 h2) (by decide)

theorem lowerAscii_eq_of_not_lower {c s : Char} (h : lowerAscii c = s)
    (hs : ¬ ('a' ≤ s ∧ s ≤ 'z')) : c = s := by
  rcases lowerAscii_cases c with h1 | h1
  · rw [← h1, h]
  · rw [h] at h1
    exact absurd h1 hs

theorem splitScheme_isSome (l : List Char) :
    (splitScheme l).isSome = hasSub (':' :: '/' :: '/' :: []) l := by
  induction l with
  | nil => rfl
  | cons c cs ih =>
    simp only [splitScheme, hasSub]
    by_cases hp : (':' :: '/' :: '/' :: []).isPrefixOf (c :: cs)
    · simp [hp]
    · rcases hsp : splitScheme cs with _ | p
      · rw [hsp] at ih
        simp [hp, ← ih]
      · rw [hsp] at ih
        simp [hp, ← ih]

theorem splitScheme_eq {pre post : List Char} (h : ':' ∉ pre) :
    splitScheme (pre ++ ':' :: '/' :: '/' :: post) = some (pre, post) := by
  induction pre with
  | nil => simp [splitScheme, List.isPrefixOf]
  | cons c cs ih =>
    simp only [List.mem_cons, not_or] at h
    have hne : ¬ (':' :: '/' :: '/' :: []).isPrefixOf
        (c :: (cs ++ ':' :: '/' :: '/' :: post)) := by
      intro hp
      rcases (List.isPrefixOf_iff_prefix.1 hp) with ⟨t, ht⟩
      have : c = ':' := by
        have := congrArg (fun l => l.head?) ht
        simpa using this.symm
      exact h.1 this.symm
    rw [List.cons_append]
    simp only [splitScheme]
    rw [if_neg hne, ih h.2]
    rfl

theorem takeWhile_append_stop {p : Char → Bool} {xs ys : List Char} {y : Char}
    (hx : ∀ x ∈ xs, p x = true) (hy : p y = false) :
    (xs ++ y :: ys).takeWhile p = xs := by
  induction xs with
  | nil => simp [List.takeWhile, hy]
  | cons c cs ih =>
    simp only [List.cons_append, List.takeWhile]
    rw [hx c (by simp)]
    simp only [List.append_eq]
    rw [ih (fun x hx2 => hx x (by simp [hx2]))]

theorem mem_afterLast {c x : Char} {l : List Char} (h : x ∈ afterLast c l) :
    x ≠ c ∧ x ∈ l := by
  unfold afterLast at h
  rw [List.mem_reverse] at h
  constructor
  · have := List.mem_takeWhile_imp h
    simpa using this
  · have := (List.takeWhile_prefix (fun d => d != c)).subset h
    simpa using this

theorem afterLast_of_not_mem {c : Char} {l : List Char} (h : c ∉ l) :
    afterLast c l = l := by
  unfold afterLast
  rw [List.takeWhile_eq_self_iff.2, List.reverse_reverse]
  intro x hx
  rw [List.mem_reverse] at hx
  simp only [bne_iff_ne, ne_eq]
  intro he
  subst he
  exact h hx

theorem dotNormAux_mem {x : List Char} {segs acc : List (List Char)}
    (h : x ∈ dotNormAux acc segs) :
    x ∈ acc ∨ (x ∈ segs ∧ x ≠ ['.'] ∧ x ≠ ['.', '.']) := by
  induction segs generalizing acc with
  | nil => exact Or.inl (by simpa [dotNormAux] using h)
  | cons s rest ih =>
    simp only [dotNormAux] at h
    by_cases h1 : s = ['.']
    · rw [if_pos h1] at h
      rcases ih h with h2 | h2
      · exact Or.inl h2
      · exact Or.inr ⟨List.mem_cons_of_mem _ h2.1, h2.2⟩
    · rw [if_neg h1] at h
      by_cases h2 : s = ['.', '.']
      · rw [if_pos h2] at h
        rcases ih h with h3 | h3
        · exact Or.inl (List.mem_of_mem_dropLast h3)
        · exact Or.inr ⟨List.mem_cons_of_mem _ h3.1, h3.2⟩
      · rw [if_neg h2] at h
        rcases ih h with h3 | h3
        · rcases List.mem_append.1 h3 with h4 | h4
          · exact Or.inl h4
          · simp only [List.mem_singleton] at h4
            subst h4
            exact Or.inr ⟨by simp, h1, h2⟩
        · exact Or.inr ⟨List.mem_cons_of_mem _ h3.1, h3.2⟩

theorem dotNorm_pair {o cr : List Char} (h1 : o ≠ ['.']) (h2 : o ≠ ['.', '.'])
    (h3 : cr ≠ ['.']) (h4 : cr ≠ ['.', '.']) : dotNorm [o, cr] = [o, cr] := by
  simp [dotNorm, dotNormAux, if_neg h1, if_neg h2, if_neg h3, if_neg h4]

theorem map_lowerAscii_idem (l : List Char) :
    (l.map lowerAscii).map lowerAscii = l.map lowerAscii := by
  rw [List.map_map]
  exact List.map_congr_left (fun x _ => lowerAscii_idem x)

theorem jsUrlParse_normUrl {h o cr : List Char}
    (hh : h ≠ []) (hhs : ∀ x ∈ h, x ≠ '/' ∧ x ≠ '?' ∧ x ≠ '#' ∧ x ≠ ':' ∧ x ≠ '@')
    (hlow : h.map lowerAscii = h)
    (hos : ∀ x ∈ o, x ≠ '?' ∧ x ≠ '#')
    (hcs : ∀ x ∈ cr, x ≠ '?' ∧ x ≠ '#') :
    jsUrlParse ('h' :: 't' :: 't' :: 'p' :: 's' :: ':' :: '/' :: '/' ::
        (h ++ '/' :: (o ++ '/' :: cr)))
      = some { hostname := h, path := '/' :: (o ++ '/' :: cr) } := by
  have e1 : ('h' :: 't' :: 't' :: 'p' :: 's' :: ':' :: '/' :: '/' ::
      (h ++ '/' :: (o ++ '/' :: cr)))
      = "https".toList ++ ':' :: '/' :: '/' :: (h ++ '/' :: (o ++ '/' :: cr)) := rfl
  have e2 : splitScheme ('h' :: 't' :: 't' :: 'p' :: 's' :: ':' :: '/' :: '/' ::
      (h ++ '/' :: (o ++ '/' :: cr)))
      = some ("https".toList, h ++ '/' :: (o ++ '/' :: cr)) := by
    rw [e1]
    exact splitScheme_eq (by decide)
  have e3 : (h ++ '/' :: (o ++ '/' :: cr)).takeWhile
      (fun c => c != '/' && c != '?' && c != '#') = h := by
    refine takeWhile_append_stop (fun x hx => ?_) (by decide)
    rcases hhs x hx with ⟨h1, h2, h3, _, _⟩
    simp [h1, h2, h3]
  have e4 : afterLast '@' h = h := by
    refine afterLast_of_not_mem (fun hmem => ?_)
    exact (hhs '@' hmem).2.2.2.2 rfl
  have e5 : h.takeWhile (fun c => c != ':') = h := by
    rw [List.takeWhile_eq_self_iff]
    intro x hx
    simp [(hhs x hx).2.2.2.1]
  have e6 : ((h ++ '/' :: (o ++ '/' :: cr)).drop h.length).takeWhile
      (fun c => c != '?' && c != '#') = '/' :: (o ++ '/' :: cr) := by
    rw [List.drop_left]
    rw [List.takeWhile_eq_self_iff]
    intro x hx
    rcases List.mem_cons.1 hx with h1 | h1
    · simp [h1]
    · rcases List.mem_append.1 h1 with h2 | h2
      · rcases hos x h2 with ⟨h3, h4⟩
        simp [h3, h4]
      · rcases List.mem_cons.1 h2 with h3 | h3
        · simp [h3]
        · rcases hcs x h3 with ⟨h4, h5⟩
          simp [h4, h5]
  have hhe : h.isEmpty = false := by
    rcases h with _ | _
    · exact absurd rfl hh
    · rfl
  unfold jsUrlParse
  rw [e2]
  simp only [e3, e4, e5, e6, hhe, hlow]
  rw [if_pos (by decide)]
  simp [hhe]

theorem toList_normUrl (h o cr : List Char) :
    ("https://" ++ String.mk h ++ "/" ++ String.mk o ++ "/" ++ String.mk cr).toList
      = 'h' :: 't' :: 't' :: 'p' :: 's' :: ':' :: '/' :: '/' ::
          (h ++ '/' :: (o ++ '/' :: cr)) := by
  simp only [String.toList, String.data_append]
  simp

theorem normalizeRef_normUrl {h o cr : List Char}
    (hh : h ≠ []) (hhs : ∀ x ∈ h, x ≠ '/' ∧ x ≠ '?' ∧ x ≠ '#' ∧ x ≠ ':' ∧ x ≠ '@')
    (hlow : h.map lowerAscii = h)
    (ho : o ≠ []) (hos : ∀ x ∈ o, x ≠ '/' ∧ x ≠ '?' ∧ x ≠ '#')
    (hodot1 : o ≠ ['.']) (hodot2 : o ≠ ['.', '.'])
    (hc : cr ≠ []) (hcs : ∀ x ∈ cr, x ≠ '/' ∧ x ≠ '?' ∧ x ≠ '#')
    (hcdot1 : cr ≠ ['.']) (hcdot2 : cr ≠ ['.', '.'])
    (hgit : ¬ ('.' :: 'g' :: 'i' :: 't' :: []).isSuffixOf cr) :
    normalizeRef ("https://" ++ String.mk h ++ "/" ++ String.mk o ++ "/" ++ String.mk cr)
      = Except.ok
          { owner := o, cleanRepo := cr,
            branch := branchMatch ('h' :: 't' :: 't' :: 'p' :: 's' :: ':' :: '/' :: '/' ::
              (h ++ '/' :: (o ++ '/' :: cr))),
            commit := commitMatch ('h' :: 't' :: 't' :: 'p' :: 's' :: ':' :: '/' :: '/' ::
              (h ++ '/' :: (o ++ '/' :: cr))),
            provider := detectProvider h, hostname := h,
            url1 := "https://" ++ String.mk h ++ "/" ++ String.mk o ++ "/" ++ String.mk cr } := by
  have eU := toList_normUrl h o cr
  have ejs : jsUrlParse ("https://" ++ String.mk h ++ "/" ++ String.mk o ++ "/" ++
      String.mk cr).toList = some { hostname := h, path := '/' :: (o ++ '/' :: cr) } := by
    rw [eU]
    exact jsUrlParse_normUrl hh hhs hlow (fun x hx => ⟨(hos x hx).2.1, (hos x hx).2.2⟩)
      (fun x hx => ⟨(hcs x hx).2.1, (hcs x hx).2.2⟩)
  have ehs : hasSub (':' :: '/' :: '/' :: [])
      ("https://" ++ String.mk h ++ "/" ++ String.mk o ++ "/" ++ String.mk cr).toList
        = true := by
    rw [← splitScheme_isSome, eU]
    rw [show ('h' :: 't' :: 't' :: 'p' :: 's' :: ':' :: '/' :: '/' ::
        (h ++ '/' :: (o ++ '/' :: cr)))
        = "https".toList ++ ':' :: '/' :: '/' :: (h ++ '/' :: (o ++ '/' :: cr)) from rfl]
    rw [splitScheme_eq (by decide)]
    rfl
  have evalid : gitUrlValid ("https://" ++ String.mk h ++ "/" ++ String.mk o ++ "/" ++
      String.mk cr) = true := by
    unfold gitUrlValid
    rw [if_pos ehs, ejs]
    rfl
  have esegs : pathSegs { hostname := h, path := '/' :: (o ++ '/' :: cr) } = [o, cr] := by
    unfold pathSegs
    have e1 : splitOnC '/' ('/' :: (o ++ '/' :: cr)) = [[], o, cr] := by
      show splitOnC '/' ([] ++ '/' :: (o ++ '/' :: cr)) = [[], o, cr]
      rw [splitOnC_append_sep (by simp)]
      rw [splitOnC_append_sep (fun hmem => (hos '/' hmem).1 rfl)]
      rw [splitOnC_no_sep (fun hmem => (hcs '/' hmem).1 rfl)]
    rw [e1]
    have hoe : o.isEmpty = false := by
      rcases o with _ | _
      · exact absurd rfl ho
      · rfl
    have hce : cr.isEmpty = false := by
      rcases cr with _ | _
      · exact absurd rfl hc
      · rfl
    simp only [List.filter, hoe, hce, List.isEmpty_nil, Bool.not_true, Bool.not_false]
    exact dotNorm_pair hodot1 hodot2 hcdot1 hcdot2
  have estrip : stripGitSuffix cr = cr := by
    unfold stripGitSuffix
    rw [if_neg hgit]
  have hoe2 : o.isEmpty = false := by
    rcases o with _ | _
    · exact absurd rfl ho
    · rfl
  have hce2 : cr.isEmpty = false := by
    rcases cr with _ | _
    · exact absurd rfl hc
    · rfl
  unfold normalizeRef normalizeCore
  rw [if_neg (by rw [evalid]; simp)]
  rw [if_neg (by rw [ehs]; simp)]
  have ejs2 : jsUrlParse ('h' :: 't' :: 't' :: 'p' :: 's' :: ':' :: '/' :: '/' ::
      (h ++ '/' :: (o ++ '/' :: cr)))
      = some { hostname := h, path := '/' :: (o ++ '/' :: cr) } := by
    rw [← eU]
    exact ejs
  simp only [eU, ejs2, esegs, estrip]
  rw [if_neg (by rw [hoe2, hce2]; simp)]

theorem jsUrlParse_ok_inv {l : List Char} {u : JsUrl} (h : jsUrlParse l = some u) :
    u.hostname ≠ [] ∧
    (∀ c ∈ u.hostname, c ≠ '/' ∧ c ≠ '?' ∧ c ≠ '#' ∧ c ≠ ':' ∧ c ≠ '@') ∧
    u.hostname.map lowerAscii = u.hostname ∧
    (∀ c ∈ u.path, c ≠ '?' ∧ c ≠ '#') := by
  unfold jsUrlParse at h
  rcases hsp : splitScheme l with _ | ⟨scheme, rest⟩
  · rw [hsp] at h
    exact absurd h (by simp)
  · rw [hsp] at h
    simp only [] at h
    by_cases hsch : schemeOk scheme
    · rw [if_pos hsch] at h
      by_cases hae : (rest.takeWhile (fun c => c != '/' && c != '?' && c != '#')).isEmpty
      · rw [if_pos hae] at h
        exact absurd h (by simp)
      · rw [if_neg hae] at h
        by_cases hhe : (((afterLast '@' (rest.takeWhile
            (fun c => c != '/' && c != '?' && c != '#'))).takeWhile
            (fun c => c != ':'))).isEmpty
        · rw [if_pos hhe] at h
          exact absurd h (by simp)
        · rw [if_neg hhe] at h
          simp only [Option.some.injEq] at h
          subst h
          set authority := rest.takeWhile (fun c => c != '/' && c != '?' && c != '#') with hauthdef
          set host := (afterLast '@' authority).takeWhile (fun c => c != ':') with hhostdef
          refine ⟨?_, ?_, ?_, ?_⟩
          · simp only []
            intro hmap
            rw [List.map_eq_nil_iff] at hmap
            rw [hmap] at hhe
            exact hhe rfl
          · intro c hc
            simp only [] at hc
            rcases List.mem_map.1 hc with ⟨y, hy, rfl⟩
            rw [hhostdef] at hy
            have hy1 := List.mem_takeWhile_imp hy
            have hy2 : y ∈ afterLast '@' authority :=
              (List.takeWhile_prefix (fun c => c != ':')).subset hy
            rcases mem_afterLast hy2 with ⟨hy3, hy4⟩
            rw [hauthdef] at hy4
            have hy5 := List.mem_takeWhile_imp hy4
            simp only [Bool.and_eq_true, bne_iff_ne, ne_eq] at hy1 hy5
            refine ⟨?_, ?_, ?_, ?_, ?_⟩
            · intro he
              exact hy5.1.1 (lowerAscii_eq_of_not_lower he (by decide))
            · intro he
              exact hy5.1.2 (lowerAscii_eq_of_not_lower he (by decide))
            · intro he
              exact hy5.2 (lowerAscii_eq_of_not_lower he (by decide))
            · intro he
              exact hy1 (lowerAscii_eq_of_not_lower he (by decide))
            · intro he
              exact hy3 (lowerAscii_eq_of_not_lower he (by decide))
          · exact map_lowerAscii_idem host
          · intro c hc
            simp only [] at hc
            have := List.mem_takeWhile_imp hc
            simp only [Bool.and_eq_true, bne_iff_ne, ne_eq] at this
            exact this
    · rw [if_neg hsch] at h
      exact absurd h (by simp)

theorem mem_stripGitSuffix {c : Char} {r : List Char} (h : c ∈ stripGitSuffix r) :
    c ∈ r := by
  unfold stripGitSuffix at h
  split at h
  · exact (List.take_sublist _ _).subset h
  · exact h

theorem normalizeCore_ok_inv {x : String} {n : NormRef}
    (hok : normalizeCore x = Except.ok n) :
    n.provider = detectProvider n.hostname ∧
    n.hostname ≠ [] ∧
    (∀ c ∈ n.hostname, c ≠ '/' ∧ c ≠ '?' ∧ c ≠ '#' ∧ c ≠ ':' ∧ c ≠ '@') ∧
    n.hostname.map lowerAscii = n.hostname ∧
    n.owner ≠ [] ∧ (∀ c ∈ n.owner, c ≠ '/' ∧ c ≠ '?' ∧ c ≠ '#') ∧
    n.owner ≠ ['.'] ∧ n.owner ≠ ['.', '.'] ∧
    n.cleanRepo ≠ [] ∧ (∀ c ∈ n.cleanRepo, c ≠ '/' ∧ c ≠ '?' ∧ c ≠ '#') := by
  unfold normalizeCore at hok
  split at hok
  · exact absurd hok (by simp)
  rename_i u hjs
  split at hok
  swap
  · exact absurd hok (by simp)
  rename_i owner repo tail hsegs
  dsimp only [] at hok
  split at hok
  · exact absurd hok (by simp)
  rename_i hguard
  simp only [Except.ok.injEq] at hok
  subst hok
  obtain ⟨hu1, hu2, hu3, hu4⟩ := jsUrlParse_ok_inv hjs
  have hmemseg : ∀ s, s ∈ pathSegs u →
      s ≠ [] ∧ s ≠ ['.'] ∧ s ≠ ['.', '.'] ∧
      (∀ c ∈ s, c ≠ '/' ∧ c ≠ '?' ∧ c ≠ '#') := by
    intro s hs
    unfold pathSegs at hs
    rcases dotNormAux_mem hs with h1 | ⟨h1, h2, h3⟩
    · simp at h1
    · rcases List.mem_filter.1 h1 with ⟨h4, h5⟩
      rcases mem_splitOnC h4 with ⟨h6, h7⟩
      refine ⟨by simpa using h5, h2, h3, ?_⟩
      intro c hc
      rcases hu4 c (h7 c hc) with ⟨h8, h9⟩
      exact ⟨fun he => h6 (he ▸ hc), h8, h9⟩
  have howner : owner ∈ pathSegs u := by rw [hsegs]; simp
  have hrepo : repo ∈ pathSegs u := by rw [hsegs]; simp
  rcases hmemseg owner howner with ⟨ho1, ho2, ho3, ho4⟩
  rcases hmemseg repo hrepo with ⟨hr1, hr2, hr3, hr4⟩
  rw [not_or] at hguard
  refine ⟨rfl, hu1, hu2, hu3, ho1, ho4, ho2, ho3, ?_, ?_⟩
  · simpa [List.isEmpty_iff] using hguard.2
  · intro c hc
    exact hr4 c (mem_stripGitSuffix hc)

theorem normalizeCore_url1 {y : String} {n : NormRef}
    (h : normalizeCore y = Except.ok n) : n.url1 = y := by
  unfold normalizeCore at h
  split at h
  · exact absurd h (by simp)
  rename_i u hjs
  split at h
  swap
  · exact absurd h (by simp)
  dsimp only [] at h
  split at h
  · exact absurd h (by simp)
  simp only [Except.ok.injEq] at h
  rw [← h]

theorem normalizeRef_ok_core {x : String} {n : NormRef}
    (hok : normalizeRef x = Except.ok n) :
    normalizeCore n.url1 = Except.ok n ∧ gitUrlValid x = true := by
  unfold normalizeRef at hok
  split at hok
  · exact absurd hok (by simp)
  rename_i hval
  rw [normalizeCore_url1 hok]
  exact ⟨hok, by simpa using hval⟩

theorem parse_eq_of_normalizeRef_ok {url : String} {opts : ParseOptions}
    {env : ParseEnv} {n : NormRef} (h : normalizeRef url = Except.ok n) :
    parse url opts env =
      (Except.ok
        { metadata :=
            { owner := String.mk n.owner, repo := String.mk n.cleanRepo,
              branch := n.branch.map String.mk, commit := n.commit.map String.mk,
              provider := n.provider,
              isPrivate :=
                (if n.provider = Provider.github then
                  githubMetadataStep (String.mk n.owner) (String.mk n.cleanRepo) opts env
                else (false, {})).1 },
          normalizedUrl := normalizedUrlOf n,
          originalUrl := n.url1 },
       (if n.provider = Provider.github then
          githubMetadataStep (String.mk n.owner) (String.mk n.cleanRepo) opts env
        else (false, {})).2) := by
  unfold parse
  rw [h]

theorem parse_ok_inv {url : String} {opts : ParseOptions} {env : ParseEnv}
    {r : ParsedGitUrl} {t : Trace} (h : parse url opts env = (Except.ok r, t)) :
    ∃ n, normalizeRef url = Except.ok n ∧
      r.metadata.owner = String.mk n.owner ∧
      r.metadata.repo = String.mk n.cleanRepo ∧
      r.metadata.provider = n.provider ∧
      r.metadata.branch = n.branch.map String.mk ∧
      r.metadata.commit = n.commit.map String.mk ∧
      r.normalizedUrl = normalizedUrlOf n ∧
      r.originalUrl = n.url1 := by
  unfold parse at h
  split at h
  · simp at h
  rename_i n hn
  refine ⟨n, hn, ?_⟩
  dsimp only [] at h
  rw [Prod.mk.injEq] at h
  rcases h with ⟨h1, h2⟩
  simp only [Except.ok.injEq] at h1
  rw [← h1]
  exact ⟨rfl, rfl, rfl, rfl, rfl, rfl, rfl⟩

/-- C6 (amended): re-normalization reproduces owner, repo, provider and
normalized URL with branch and commit absent, provided the cleaned
repository name does not still end in `.git`, is not a pure dot segment,
and the normalized URL contains no `/tree/<token>` or `/commit/<hex>`
occurrence.  (The unamended claim fails on inputs such as
`a/b.git.git`, whose normalized URL re-normalizes differently.) -/
theorem C6_renormalization_idempotent_amended {x : String} {opts : ParseOptions}
    {env : ParseEnv} {r : ParsedGitUrl} {t : Trace}
    (hok : parse x opts env = (Except.ok r, t))
    (hgit : ¬ ('.' :: 'g' :: 'i' :: 't' :: []).isSuffixOf r.metadata.repo.toList)
    (hdot1 : r.metadata.repo ≠ ".") (hdot2 : r.metadata.repo ≠ "..")
    (hbr : branchMatch r.normalizedUrl.toList = none)
    (hcm : commitMatch r.normalizedUrl.toList = none) :
    ∀ opts2 env2, ∃ r2 t2, parse r.normalizedUrl opts2 env2 = (Except.ok r2, t2) ∧
      r2.metadata.owner = r.metadata.owner ∧
      r2.metadata.repo = r.metadata.repo ∧
      r2.metadata.provider = r.metadata.provider ∧
      r2.normalizedUrl = r.normalizedUrl ∧
      r2.metadata.branch = none ∧ r2.metadata.commit = none := by
  intro opts2 env2
  obtain ⟨n, hn, ho, hr, hp, hb, hc, hnu, hou⟩ := parse_ok_inv hok
  obtain ⟨hcore, hval⟩ := normalizeRef_ok_core hn
  obtain ⟨hprov, hh1, hh2, hh3, ho1, ho2, ho3, ho4, hc1, hc2⟩ := normalizeCore_ok_inv hcore
  have hgit2 : ¬ ('.' :: 'g' :: 'i' :: 't' :: []).isSuffixOf n.cleanRepo := by
    rw [hr] at hgit
    exact hgit
  have hdot1b : n.cleanRepo ≠ ['.'] := by
    intro he
    exact hdot1 (by rw [hr, he])
  have hdot2b : n.cleanRepo ≠ ['.', '.'] := by
    intro he
    exact hdot2 (by rw [hr, he])
  have hre := normalizeRef_normUrl hh1 hh2 hh3 ho1 ho2 ho3 ho4 hc1 hc2 hdot1b hdot2b hgit2
  have hLbr : branchMatch ('h' :: 't' :: 't' :: 'p' :: 's' :: ':' :: '/' :: '/' ::
      (n.hostname ++ '/' :: (n.owner ++ '/' :: n.cleanRepo))) = none := by
    rw [← toList_normUrl]
    rw [hnu] at hbr
    exact hbr
  have hLcm : commitMatch ('h' :: 't' :: 't' :: 'p' :: 's' :: ':' :: '/' :: '/' ::
      (n.hostname ++ '/' :: (n.owner ++ '/' :: n.cleanRepo))) = none := by
    rw [← toList_normUrl]
    rw [hnu] at hcm
    exact hcm
  have hre2 := @parse_eq_of_normalizeRef_ok _ opts2 env2 _ hre
  refine ⟨_, _, by rw [hnu]; exact hre2, ?_, ?_, ?_, ?_, ?_, ?_⟩
  · simp [ho]
  · simp [hr]
  · simp [hp, hprov]
  · simp [hnu, normalizedUrlOf]
  · simp [hLbr]
  · simp [hLcm]

/-- C6 (counterexample): the claimed equation
`normalize(normalize(x).normalizedUrl).normalizedUrl = normalize(x).normalizedUrl`
fails at `x = "a/b.git.git"`: the first normalization strips one `.git`
suffix yielding `https://github.com/a/b.git`, and re-normalizing that URL
strips another, yielding `https://github.com/a/b`. -/
theorem C6_renormalization_not_idempotent :
    ((parse "a/b.git.git" {} env0).1.toOption.map (fun r => r.normalizedUrl)
        = some "https://github.com/a/b.git") ∧
    ((parse "https://github.com/a/b.git" {} env0).1.toOption.map (fun r => r.normalizedUrl)
        = some "https://github.com/a/b") ∧
    ("https://github.com/a/b" : String) ≠ "https://github.com/a/b.git" := by
  refine ⟨?_, ?_, ?_⟩ <;> decide

/-- C6 (witness): the amended idempotence theorem applied to the concrete
input `user/repo`. -/
theorem C6_renormalization_witness :
    ∃ r2 t2, parse "https://github.com/user/repo" {} env0 = (Except.ok r2, t2) ∧
      r2.metadata.owner = "user" ∧ r2.metadata.repo = "repo" ∧
      r2.metadata.provider = Provider.github ∧
      r2.normalizedUrl = "https://github.com/user/repo" ∧
      r2.metadata.branch = none ∧ r2.metadata.commit = none :=
  @C6_renormalization_idempotent_amended "user/repo" {} env0
    { metadata := { owner := "user", repo := "repo", branch := none, commit := none,
                    provider := Provider.github, isPrivate := false },
      normalizedUrl := "https://github.com/user/repo",
      originalUrl := "https://github.com/user/repo" }
    { fetchCalls := [("https://api.github.com/repos/user/repo", none)], logs := [] }
    (by rfl) (by decide) (by decide) (by decide) (by decide) (by decide) {} env0

/-- C1 (code_bug evaluation): with a bearer token carrying neither
recognized prefix, `parse` does NOT abort: the thrown invalid-token-format
error is swallowed by the catch-all of lines 185-199, logged at error
level, and a full result with `isPrivate = false` is returned.  No network
call is made (the claim is right about that part). The repository's own
test (`should handle invalid token format`) expects the call to reject,
so this is a defect of the code, not of the claim. -/
theorem C1_invalid_token_swallowed :
    parse "https://github.com/user/repo" { authToken := some "invalid_token" } env0 =
      (Except.ok
        { metadata := { owner := "user", repo := "repo", branch := none, commit := none,
                        provider := Provider.github, isPrivate := false },
          normalizedUrl := "https://github.com/user/repo",
          originalUrl := "https://github.com/user/repo" },
       { fetchCalls := [],
         logs := [{ level := LogLevel.err,
                    message := "Failed to fetch repository metadata: Invalid GitHub token format. Token should be a GitHub Personal Access Token." }] }) := by
  rfl

/-- C2 (code_bug evaluation): with an App configuration lacking
`installationId`, the auth step does produce the distinguished `app`-typed
result with a non-empty installation URL and the metadata fetch is never
attempted (both true parts of the claim), but `parse` absorbs the
`GitHub App installation required` signal in the catch-all of lines
185-199 and returns a normal result with `isPrivate = false` instead of
propagating an authentication-required outcome. -/
theorem C2_app_pending_swallowed :
    parse "https://github.com/user/repo" { githubApp := some cfgNoInst } envApp =
      (Except.ok
        { metadata := { owner := "user", repo := "repo", branch := none, commit := none,
                        provider := Provider.github, isPrivate := false },
          normalizedUrl := "https://github.com/user/repo",
          originalUrl := "https://github.com/user/repo" },
       { fetchCalls := [],
         logs := [{ level := LogLevel.err,
                    message := "Failed to fetch repository metadata: GitHub App installation required" }] }) ∧
    getAuthenticationToken cfgNoInst envApp.appAuth =
      Except.ok { token := "tok", type := AuthType.app, expiresAt := some "e",
                  installationUrl := some GITHUB_APP_INSTALLATION_URL } ∧
    GITHUB_APP_INSTALLATION_URL ≠ "" := by
  refine ⟨by rfl, by rfl, by decide⟩

/-- C10 (confirmed): branch and commit extraction run over the whole
shorthand-expanded URL string, so the owner/repo positions themselves can
match: shorthand `tree/x` yields owner `tree`, repo `x` and a spurious
branch `x`; shorthand `commit/abc` (owner named `commit`, hex-named repo)
yields a spurious commit `abc`. -/
theorem C10_branch_commit_positional_artifacts :
    (parse "tree/x" {} env0).1.toOption =
      some { metadata := { owner := "tree", repo := "x", branch := some "x", commit := none,
                           provider := Provider.github, isPrivate := false },
             normalizedUrl := "https://github.com/tree/x",
             originalUrl := "https://github.com/tree/x" } ∧
    (parse "commit/abc" {} env0).1.toOption =
      some { metadata := { owner := "commit", repo := "abc", branch := none,
                           commit := some "abc", provider := Provider.github,
                           isPrivate := false },
             normalizedUrl := "https://github.com/commit/abc",
             originalUrl := "https://github.com/commit/abc" } := by
  refine ⟨?_, ?_⟩ <;> decide

/-- C7 (counterexample): for a shorthand input the returned `originalUrl`
is the shorthand-expanded URL, not the caller-supplied string verbatim:
`parse "user/repo"` returns `originalUrl = "https://github.com/user/repo"`
because the code reassigns the `url` parameter before returning it. -/
theorem C7_originalUrl_not_verbatim :
    (parse "user/repo" {} env0).1.toOption.map (fun r => r.originalUrl)
      = some "https://github.com/user/repo" ∧
    ("https://github.com/user/repo" : String) ≠ "user/repo" := by
  refine ⟨?_, ?_⟩ <;> decide

theorem normalizeRef_url1 {x : String} {n : NormRef}
    (hok : normalizeRef x = Except.ok n) :
    n.url1 = if hasSub (':' :: '/' :: '/' :: []) x.toList then x
      else "https://github.com/" ++ x := by
  unfold normalizeRef at hok
  split at hok
  · exact absurd hok (by simp)
  rw [normalizeCore_url1 hok]
  by_cases hs : hasSub (':' :: '/' :: '/' :: []) x.toList
  · rw [if_pos hs, if_neg (by simpa using hs)]
  · rw [if_neg hs, if_pos (by simpa using hs)]

/-- C7 (amended): `originalUrl` is the input string verbatim when the input
contains the scheme separator, and the shorthand-expanded
`https://github.com/<input>` otherwise. -/
theorem C7_originalUrl_amended {url : String} {opts : ParseOptions} {env : ParseEnv}
    {r : ParsedGitUrl} {t : Trace} (h : parse url opts env = (Except.ok r, t)) :
    r.originalUrl = if hasSub (':' :: '/' :: '/' :: []) url.toList then url
      else "https://github.com/" ++ url := by
  obtain ⟨n, hn, _, _, _, _, _, _, hou⟩ := parse_ok_inv h
  rw [hou]
  exact normalizeRef_url1 hn

/-- C7 (witness): the amended statement applied to the URL-form input
`https://github.com/user/repo`, where `originalUrl` is verbatim. -/
theorem C7_originalUrl_witness :
    ({ metadata := { owner := "user", repo := "repo", branch := none, commit := none,
                     provider := Provider.github, isPrivate := false },
       normalizedUrl := "https://github.com/user/repo",
       originalUrl := "https://github.com/user/repo" } : ParsedGitUrl).originalUrl
      = if hasSub (':' :: '/' :: '/' :: []) "https://github.com/user/repo".toList
          then "https://github.com/user/repo"
          else "https://github.com/" ++ "https://github.com/user/repo" :=
  @C7_originalUrl_amended "https://github.com/user/repo" {} env0
    { metadata := { owner := "user", repo := "repo", branch := none, commit := none,
                    provider := Provider.github, isPrivate := false },
      normalizedUrl := "https://github.com/user/repo",
      originalUrl := "https://github.com/user/repo" }
    { fetchCalls := [("https://api.github.com/repos/user/repo", none)], logs := [] }
    (by rfl)

/-- C5 (counterexample): the claim says a shorthand whose owner token
contains dots is accepted, but the owner side of the shorthand regex is
`[\w-]+` (no dots): `foo.bar/baz` is not an absolute URL (no `://`) and is
rejected with `InvalidFormat`. -/
theorem C5_shorthand_owner_dot_rejected :
    validate "foo.bar/baz" = false ∧
    hasSub (':' :: '/' :: '/' :: []) "foo.bar/baz".toList = false ∧
    (parse "foo.bar/baz" {} env0).1 = Except.error ParseError.invalidFormat := by
  refine ⟨by decide, by decide, by rfl⟩

/-- C5 (amended): validation fails exactly when the input is neither an
absolute URL (contains `://` and parses as a URL) nor a shorthand
`owner/repo` in which the owner consists of word characters or hyphens
(dots NOT allowed) and the repo of word characters, dots, or hyphens. -/
theorem C5_invalidFormat_characterization (s : String) :
    validate s = false ↔ ¬ (specAbsoluteUrlInput s ∨ specShorthandInput s) := by
  unfold validate gitUrlValid
  by_cases hsch : hasSub (':' :: '/' :: '/' :: []) s.toList
  · rw [if_pos hsch]
    have hsh : ¬ specShorthandInput s := by
      rintro ⟨a, b, heq, ha1, ha2, hb1, hb2⟩
      have hcol : ':' ∈ s.toList := by
        refine (hasSub_iff.1 hsch).subset ?_
        simp
      rw [heq] at hcol
      rcases List.mem_append.1 hcol with h1 | h1
      · have := ha2 ':' h1
        simp [isOwnerChar, isWordChar] at this
      · rcases List.mem_cons.1 h1 with h2 | h2
        · exact absurd h2 (by decide)
        · have := hb2 ':' h2
          simp [isTokenChar, isWordChar] at this
    have habs : specAbsoluteUrlInput s ↔ (jsUrlParse s.toList).isSome = true := by
      unfold specAbsoluteUrlInput
      constructor
      · rintro ⟨_, h2⟩
        exact h2
      · intro h2
        exact ⟨hasSub_iff.1 hsch, h2⟩
    rcases hjs : (jsUrlParse s.toList).isSome with _ | _
    · have hjs2 : jsUrlParse s.toList = none := by
        rcases hx : jsUrlParse s.toList with _ | u
        · rfl
        · rw [hx] at hjs
          simp at hjs
      simp [hjs2, habs, hsh, hjs]
      exact hjs2
    · have hjs2 : jsUrlParse s.toList ≠ none := by
        intro hx
        rw [hx] at hjs
        simp at hjs
      simp [habs, hsh, hjs, hjs2]
      exact hjs2
  · rw [if_neg hsch]
    have habs : ¬ specAbsoluteUrlInput s := fun hx => hsch (hasSub_iff.2 hx.1)
    have hsh : shorthandOk s.toList = true ↔ specShorthandInput s := by
      unfold shorthandOk specShorthandInput
      constructor
      · intro h
        split at h
        · rename_i a b hsp
          simp only [Bool.and_eq_true, Bool.not_eq_true', List.all_eq_true] at h
          rcases splitOnC_eq_pair.1 hsp with ⟨heq, _, _⟩
          refine ⟨a, b, heq, ?_, ?_, ?_, ?_⟩
          · simpa [List.isEmpty_iff] using h.1.1.1
          · intro c hc
            exact h.1.1.2 c hc
          · simpa [List.isEmpty_iff] using h.1.2
          · intro c hc
            exact h.2 c hc
        · simp at h
      · rintro ⟨a, b, heq, ha1, ha2, hb1, hb2⟩
        have hna : '/' ∉ a := by
          intro hmem
          have := ha2 '/' hmem
          simp [isOwnerChar, isWordChar] at this
        have hnb : '/' ∉ b := by
          intro hmem
          have := hb2 '/' hmem
          simp [isTokenChar, isWordChar] at this
        have hsp : splitOnC '/' s.toList = [a, b] :=
          splitOnC_eq_pair.2 ⟨heq, hna, hnb⟩
        rw [hsp]
        have hae : a.isEmpty = false := by
          rcases a with _ | _
          · exact absurd rfl ha1
          · rfl
        have hbe : b.isEmpty = false := by
          rcases b with _ | _
          · exact absurd rfl hb1
          · rfl
        have h1 : a.all isOwnerChar = true := List.all_eq_true.2 ha2
        have h2 : b.all isTokenChar = true := List.all_eq_true.2 hb2
        simp [hae, hbe, h1, h2]
    rcases hso : shorthandOk s.toList with _ | _
    · rw [hso] at hsh
      simp [habs, ← hsh]
    · rw [hso] at hsh
      simp [habs, hsh.1 rfl]

/-- C8 (confirmed): provider detection is the first-match-wins scan of the
ordered table github, gitlab, bitbucket (written out as a decision chain in
`specProviderChain`), gitlab.com and bitbucket.org hosts yield their
providers, and an unmatched hostname defaults to github with the reference
still processed (no error). -/
theorem C8_provider_table_first_match :
    (∀ h, detectProvider h = specProviderChain h) ∧
    ((parse "https://gitlab.com/user/repo" {} env0).1.toOption.map
        (fun r => r.metadata.provider) = some Provider.gitlab) ∧
    ((parse "https://bitbucket.org/user/repo" {} env0).1.toOption.map
        (fun r => r.metadata.provider) = some Provider.bitbucket) ∧
    ((parse "https://example.com/user/repo" {} env0).1.toOption.map
        (fun r => r.metadata.provider) = some Provider.github) := by
  refine ⟨?_, by decide, by decide, by decide⟩
  intro h
  unfold detectProvider specProviderChain PROVIDER_PATTERNS
  have e1 : "github.com".toList = ['g', 'i', 't', 'h', 'u', 'b', '.', 'c', 'o', 'm'] := rfl
  have e2 : "gitlab.com".toList = ['g', 'i', 't', 'l', 'a', 'b', '.', 'c', 'o', 'm'] := rfl
  have e3 : "bitbucket.org".toList
      = ['b', 'i', 't', 'b', 'u', 'c', 'k', 'e', 't', '.', 'o', 'r', 'g'] := rfl
  simp only [e1, e2, e3]
  rcases h1 : hasSub ['g', 'i', 't', 'h', 'u', 'b', '.', 'c', 'o', 'm'] h with _ | _ <;>
    rcases h2 : hasSub ['g', 'i', 't', 'l', 'a', 'b', '.', 'c', 'o', 'm'] h with _ | _ <;>
      rcases h3 : hasSub ['b', 'i', 't', 'b', 'u', 'c', 'k', 'e', 't', '.', 'o', 'r', 'g'] h
          with _ | _ <;>
        simp [List.find?, h1, h2, h3]

/-- C9 (confirmed): the provider patterns are unanchored substring tests:
any hostname containing `github.com` (such as `github.com.evil.example` or
`notgithub.com`) is classified as github and the metadata request is issued
for its owner/repo; the same substring semantics applies to the gitlab and
bitbucket patterns and to `isValidProvider`. -/
theorem C9_provider_substring_matching :
    (∀ h, hasSub "github.com".toList h = true → detectProvider h = Provider.github) ∧
    ((parse "https://github.com.evil.example/a/b" {} env0).2.fetchCalls
        = [("https://api.github.com/repos/a/b", none)]) ∧
    ((parse "https://github.com.evil.example/a/b" {} env0).1.toOption.map
        (fun r => r.metadata.provider) = some Provider.github) ∧
    detectProvider "notgithub.com".toList = Provider.github ∧
    isValidProvider "https://notgithub.com/a/b" = true ∧
    detectProvider "gitlab.com.evil.example".toList = Provider.gitlab ∧
    detectProvider "bitbucket.org.evil.example".toList = Provider.bitbucket ∧
    isValidProvider "https://github.com.evil.example/a/b" = true ∧
    isValidProvider "https://example.com/a/b" = false := by
  refine ⟨?_, by decide, by decide, by decide, by decide, by decide, by decide,
    by decide, by decide⟩
  intro h hs
  unfold detectProvider PROVIDER_PATTERNS
  have e1 : "github.com".toList = ['g', 'i', 't', 'h', 'u', 'b', '.', 'c', 'o', 'm'] := rfl
  rw [e1] at hs
  simp [List.find?, hs]

/-- C9 (witness): the substring-matching part applied to the hostname
`github.com.evil.example`. -/
theorem C9_substring_witness :
    detectProvider "github.com.evil.example".toList = Provider.github :=
  C9_provider_substring_matching.1 "github.com.evil.example".toList (by decide)

/-- C4 (confirmed): a non-success response is classified as
`RateLimitExceeded` exactly when the status is 403 and the
`x-ratelimit-remaining` header is the string `"0"`, with the reset instant
derived from the `x-ratelimit-reset` header read as epoch seconds and
scaled to epoch milliseconds; a 403 with a different remaining counter is a
generic `ProviderApiError`, and a 404 is `RepositoryNotFound` carrying
owner and repo. -/
theorem C4_rate_limit_classification (status : Nat) (remaining reset : Option String)
    (body owner repo : String) :
    (classifyResponse status remaining reset body owner repo
        = FetchError.rateLimitExceeded (jsNumber reset * 1000)
      ↔ status = 403 ∧ remaining = some "0") ∧
    (∀ v, classifyResponse status remaining reset body owner repo
        = FetchError.rateLimitExceeded v → v = jsNumber reset * 1000) ∧
    (status = 403 → remaining ≠ some "0" →
      classifyResponse status remaining reset body owner repo
        = FetchError.providerApiError status body) ∧
    (status = 404 → classifyResponse status remaining reset body owner repo
        = FetchError.repositoryNotFound owner repo) := by
  unfold classifyResponse
  by_cases h404 : status = 404
  · subst h404
    simp
  · rw [if_neg h404]
    by_cases h403 : status = 403 ∧ remaining = some "0"
    · rw [if_pos h403]
      simp [h403.1, h403.2]
    · rw [if_neg h403]
      constructor
      · simp [h403]
      · constructor
        · intro v hv
          simp at hv
        · constructor
          · intro h1 h2
            rfl
          · intro h1
            exact absurd h1 h404

/-- C4 (witness): the classification theorem applied at a rate-limited, a
forbidden-but-not-exhausted, and a not-found response. -/
theorem C4_classification_witness :
    (classifyResponse 403 (some "0") (some "1700000000") "b" "o" "r"
      = FetchError.rateLimitExceeded 1700000000000) ∧
    (classifyResponse 403 (some "42") none "b" "o" "r"
      = FetchError.providerApiError 403 "b") ∧
    (classifyResponse 404 (some "0") none "b" "o" "r"
      = FetchError.repositoryNotFound "o" "r") := by
  refine ⟨?_, ?_, ?_⟩
  · have h := (C4_rate_limit_classification 403 (some "0") (some "1700000000")
      "b" "o" "r").1.2 ⟨rfl, rfl⟩
    rw [h]
    decide
  · exact (C4_rate_limit_classification 403 (some "42") none "b" "o" "r").2.2.1 rfl
      (by simp)
  · exact (C4_rate_limit_classification 404 (some "0") none "b" "o" "r").2.2.2 rfl

/-- C3 (confirmed): whenever the metadata request was actually issued
(`fetchCalls` non-empty, implying a successfully normalized github
reference with a resolved auth header) and the response is non-success
(404, rate-limited 403, or any other status), resolution does not abort:
it returns the full result with `isPrivate = false`, and the classified
failure is surfaced only through the log side channel, never as the
primary outcome. -/
theorem C3_metadata_failure_graceful {url : String} {opts : ParseOptions}
    {env : ParseEnv} {res : Except ParseError ParsedGitUrl} {t : Trace}
    (h : parse url opts env = (res, t))
    (hcalled : t.fetchCalls ≠ [])
    (hfail : env.response.ok = false) :
    ∃ r, res = Except.ok r ∧ r.metadata.isPrivate = false ∧
      r.metadata.provider = Provider.github ∧
      t.logs = [logFor (fetchErrorMessage (classifyResponse env.response.status
        env.response.rateLimitRemaining env.response.rateLimitReset env.response.body
        r.metadata.owner r.metadata.repo))] := by
  unfold parse at h
  split at h
  · rw [Prod.mk.injEq] at h
    rw [← h.2] at hcalled
    exact absurd rfl hcalled
  rename_i n hn
  dsimp only [] at h
  rw [Prod.mk.injEq] at h
  by_cases hprov : n.provider = Provider.github
  · rw [if_pos hprov] at h
    unfold githubMetadataStep at h
    rcases hauth : authHeaderStep opts env with e | header
    · rw [hauth] at h
      rw [← h.2] at hcalled
      exact absurd rfl hcalled
    · rw [hauth] at h
      rw [hfail] at h
      simp only [Bool.false_eq_true, if_false] at h
      refine ⟨_, h.1.symm, ?_, ?_, ?_⟩
      · rfl
      · exact hprov
      · rw [← h.2]
  · rw [if_neg hprov] at h
    rw [← h.2] at hcalled
    exact absurd rfl hcalled

/-- C3 (witness): the graceful-degradation theorem applied to a concrete
404 response. -/
theorem C3_graceful_witness :
    ∃ r, (Except.ok
        { metadata := { owner := "user", repo := "repo", branch := none, commit := none,
                        provider := Provider.github, isPrivate := false },
          normalizedUrl := "https://github.com/user/repo",
          originalUrl := "https://github.com/user/repo" }
        : Except ParseError ParsedGitUrl) = Except.ok r ∧
      r.metadata.isPrivate = false ∧
      r.metadata.provider = Provider.github ∧
      ({ fetchCalls := [("https://api.github.com/repos/user/repo", none)],
         logs := [{ level := LogLevel.err,
                    message := "Failed to fetch repository metadata: Repository not found: user/repo" }] }
        : Trace).logs
        = [logFor (fetchErrorMessage (classifyResponse resp404.status
            resp404.rateLimitRemaining resp404.rateLimitReset resp404.body
            r.metadata.owner r.metadata.repo))] :=
  @C3_metadata_failure_graceful "https://github.com/user/repo" {}
    { appAuth := { appCall := Except.error "net",
                   installationCall := Except.error "net" },
      response := resp404 }
    (Except.ok
      { metadata := { owner := "user", repo := "repo", branch := none, commit := none,
                      provider := Provider.github, isPrivate := false },
        normalizedUrl := "https://github.com/user/repo",
        originalUrl := "https://github.com/user/repo" })
    { fetchCalls := [("https://api.github.com/repos/user/repo", none)],
      logs := [{ level := LogLevel.err,
                 message := "Failed to fetch repository metadata: Repository not found: user/repo" }] }
    (by rfl) (by decide) (by rfl)
